import Mathlib

/-!
Shallow embedding of `mp/conwebsock.py` (class `ConWebsock`): a websocket
transport adapter exposing serial-port-like `read` / `write` / `inWaiting`
over a FIFO of received text chunks, with a condition-variable based
blocking loop and deadline arithmetic.

Python strings are modelled as `List Char`; the FIFO (`collections.deque`
of strings) as `List Chunk` with the front at the head.  Wall-clock time is
modelled by an environment `Env` giving, for each loop iteration `i`, the
value of `time.time() - tstart` observed at that iteration, and the chunks
appended by `on_message` while the reader is blocked in
`fifo_has_data.wait` during iteration `i`.  The loops are written with
explicit fuel; `Outcome.diverge` marks fuel exhaustion (a model artifact,
never the subject of a claim).
-/

namespace ConWebsock

/-- A chunk: one string delivered by a single `on_message` event. -/
abbrev Chunk := List Char

/-- Python `s.startswith(pat)` on char lists: `pat` occurs at the start. -/
def startsWith : List Char → List Char → Bool
  | [], _ => true
  | _ :: _, [] => false
  | p :: ps, c :: cs => p == c && startsWith ps cs

/-- Python `pat in s` on char lists: `pat` occurs as a contiguous substring. -/
def containsSub (pat : List Char) : List Char → Bool
  | [] => startsWith pat []
  | c :: cs => startsWith pat (c :: cs) || containsSub pat cs

/-- The part of `d` strictly before the first occurrence of `pat`:
the first component of Python `d.split(pat, 1)` when `pat` occurs in `d`. -/
def splitFirstBefore (pat : List Char) : List Char → List Char
  | [] => []
  | c :: cs =>
    if startsWith pat (c :: cs) then []
    else c :: splitFirstBefore pat cs

/-- The part of `d` strictly after the first occurrence of `pat`:
the second component of Python `d.split(pat, 1)` when `pat` occurs in `d`. -/
def splitFirstAfter (pat : List Char) : List Char → List Char
  | [] => []
  | c :: cs =>
    if startsWith pat (c :: cs) then (c :: cs).drop pat.length
    else splitFirstAfter pat cs

/-- UTF-8 encoding of one code point, as in Python `str.encode("utf-8")`
(Lean `Char` carries exactly the scalar values Python can encode). -/
def utf8EncodeChar (c : Char) : List Nat :=
  let n := c.toNat
  if n < 128 then [n]
  else if n < 2048 then [192 + n / 64, 128 + n % 64]
  else if n < 65536 then [224 + n / 4096, 128 + n / 64 % 64, 128 + n % 64]
  else [240 + n / 262144, 128 + n / 4096 % 64, 128 + n / 64 % 64, 128 + n % 64]

/-- UTF-8 encoding of a string (`s.encode("utf-8")`), as a byte list. -/
def utf8Encode : List Char → List Nat
  | [] => []
  | c :: cs => utf8EncodeChar c ++ utf8Encode cs

/-- `''.join(...)` over a list of chunks. -/
def joinChunks : List Chunk → List Char
  | [] => []
  | c :: cs => c ++ joinChunks cs

/-- Concatenation of the byte strings returned by successive `read` calls. -/
def joinBytes : List (List Nat) → List Nat
  | [] => []
  | b :: bs => b ++ joinBytes bs

/-- Timing/arrival environment for one blocking call.  `elapsed i` is the
value of `time.time() - tstart` observed at loop iteration `i`; `arrivals i`
is the list of chunks `on_message` appended while the call was blocked in
`fifo_has_data.wait` during iteration `i` (empty when no message arrived
before the wait returned). -/
structure Env where
  elapsed : Nat → Int
  arrivals : Nat → List Chunk

/-- Result of a blocking call: normal return, a raised `ConError` carrying
its message, or fuel exhaustion (model artifact). -/
inductive Outcome (α : Type) where
  | ok (a : α)
  | err (msg : List Char)
  | diverge
  deriving DecidableEq

/-- The message of the `ConError` raised by `wait_for_string` on timeout:
`"Timed out waiting for '%s'" % string`. -/
def timeoutMsg (s : List Char) : List Char :=
  ("Timed out waiting for '".toList) ++ s ++ ("'".toList)

/-- The loop of `ConWebsock.wait_for_string`.  Each iteration: recompute
`remaining_time = timeout - elapsed`; raise `ConError` if it is negative;
otherwise pop a chunk into the accumulated `data` and, if the awaited
string now occurs, push the part after its first occurrence back onto the
front of the deque and return `None`; if the deque is empty, block on the
condition variable (new chunks may arrive) and loop. -/
def waitForStringLoop (t : Int) (env : Env) (str : List Char) :
    Nat → Nat → List Char → List Chunk → Outcome (Option (List Char) × List Chunk)
  | 0, _, _, _ => .diverge
  | fuel + 1, i, data, fifo =>
    if t - env.elapsed i < 0 then .err (timeoutMsg str)
    else
      match fifo with
      | chunk :: rest =>
        let data' := data ++ chunk
        if containsSub str data' then
          .ok (none, splitFirstAfter str data' :: rest)
        else
          waitForStringLoop t env str fuel (i + 1) data' rest
      | [] => waitForStringLoop t env str fuel (i + 1) data (env.arrivals i)

/-- `ConWebsock.wait_for_string(string)`: starts with empty accumulated data
at iteration 0.  The `.ok` payload is the Python return value (always
`None`: the function ends with a bare `return`) paired with the deque state
after the call. -/
def waitForString (t : Int) (env : Env) (fuel : Nat) (str : List Char)
    (fifo : List Chunk) : Outcome (Option (List Char) × List Chunk) :=
  waitForStringLoop t env str fuel 0 [] fifo

/-- The loop of `ConWebsock.read`: `while len(data) < size`, where `data`
is the list of chunks popped so far; on negative remaining time, `break`
(no exception); otherwise pop a chunk or block on the condition variable. -/
def readLoop (t : Int) (env : Env) (size : Nat) :
    Nat → Nat → List Chunk → List Chunk → Outcome (List Chunk × List Chunk)
  | 0, _, data, fifo =>
    if data.length < size then .diverge else .ok (data, fifo)
  | fuel + 1, i, data, fifo =>
    if data.length < size then
      if t - env.elapsed i < 0 then .ok (data, fifo)
      else
        match fifo with
        | chunk :: rest => readLoop t env size fuel (i + 1) (data ++ [chunk]) rest
        | [] => readLoop t env size fuel (i + 1) data (env.arrivals i)
    else .ok (data, fifo)

/-- `ConWebsock.read(size)`: runs the loop from an empty accumulator, then
returns `''.join(data).encode("utf-8")` paired with the deque state. -/
def read (t : Int) (env : Env) (fuel : Nat) (size : Nat) (fifo : List Chunk) :
    Outcome (List Nat × List Chunk) :=
  match readLoop t env size fuel 0 [] fifo with
  | .ok (data, fifo') => .ok (utf8Encode (joinChunks data), fifo')
  | .err m => .err m
  | .diverge => .diverge

/-- `ConWebsock.on_message`: appends the message to the back of the deque
(and notifies all waiters). -/
def onMessage (fifo : List Chunk) (msg : Chunk) : List Chunk :=
  fifo ++ [msg]

/-- Delivering a sequence of messages via `on_message`, starting from the
empty deque of a fresh connection. -/
def pushAll (msgs : List Chunk) : List Chunk :=
  msgs.foldl onMessage []

/-- `ConWebsock.inWaiting`: `len(self.fifo)`, the number of queued chunks. -/
def inWaiting (fifo : List Chunk) : Nat :=
  fifo.length

/-- The mutable state of a `ConWebsock` instance that `authenticate`
touches: the shared `self.timeout` (seconds), the deque `self.fifo`, and
the list of strings passed to `self.ws.send`, in order. -/
structure ConnState where
  timeout : Int
  fifo : List Chunk
  sent : List (List Char)
  deriving DecidableEq

/-- The literal prompt awaited first by `authenticate`. -/
def passwordMarker : List Char := "Password: ".toList

/-- The literal ready marker awaited second by `authenticate`. -/
def connectedMarker : List Char := "WebREPL connected".toList

/-- `ConWebsock.authenticate`: sets `self.timeout = 5.0`, waits for
`"Password: "`, sends `self.password + "\r"`, waits for
`"WebREPL connected"`, then sets `self.timeout = 1.0`.  Each
`wait_for_string` call gets its own timing environment and fuel (it has its
own `tstart`); a raised `ConError` propagates. -/
def authenticate (password : List Char) (env1 env2 : Env) (fuel1 fuel2 : Nat)
    (s : ConnState) : Outcome ConnState :=
  let s1 : ConnState := { s with timeout := 5 }
  match waitForString s1.timeout env1 fuel1 passwordMarker s1.fifo with
  | .err m => .err m
  | .diverge => .diverge
  | .ok (_, fifo1) =>
    let s2 : ConnState :=
      { s1 with fifo := fifo1, sent := s1.sent ++ [password ++ ['\r']] }
    match waitForString s2.timeout env2 fuel2 connectedMarker s2.fifo with
    | .err m => .err m
    | .diverge => .diverge
    | .ok (_, fifo2) => .ok { s2 with fifo := fifo2, timeout := 1 }

/-- Observable actions of `ConWebsock.close`: the attempt to close the
websocket, and `fifo_has_data.notify_all()`. -/
inductive Action where
  | wsClose
  | notifyAll
  deriving DecidableEq

/-- Python `try: body finally: fin` where `body` yields a trace of actions
and possibly a raised exception: the finalizer actions always run after the
body, and the body's exception (if any) propagates afterwards. -/
def tryFinally (body : List Action × Option (List Char)) (fin : List Action) :
    List Action × Option (List Char) :=
  (body.1 ++ fin, body.2)

/-- The `self.ws.close()` attempt inside `close`: `r` is the transport's
behaviour — normal return or a raised exception with its message. -/
def wsCloseAttempt (r : Except (List Char) Unit) :
    List Action × Option (List Char) :=
  match r with
  | .ok _ => ([Action.wsClose], none)
  | .error e => ([Action.wsClose], some e)

/-- `ConWebsock.close`: `try: self.ws.close() finally: with
self.fifo_has_data: self.fifo_has_data.notify_all()`. -/
def close (r : Except (List Char) Unit) : List Action × Option (List Char) :=
  tryFinally (wsCloseAttempt r) [Action.notifyAll]

/-- A sequence of `read` calls, run back to back on the deque: call `k`
uses environment `envs k` and its own `(fuel, size)`.  Returns the list of
byte strings returned by the calls and the final deque, or `none` if some
call hit a model artifact (fuel exhaustion). -/
def runReads (t : Int) (envs : Nat → Env) :
    Nat → List (Nat × Nat) → List Chunk → Option (List (List Nat) × List Chunk)
  | _, [], fifo => some ([], fifo)
  | k, (fuel, size) :: calls, fifo =>
    match read t (envs k) fuel size fifo with
    | .ok (bs, fifo') =>
      match runReads t envs (k + 1) calls fifo' with
      | some (bss, fifoEnd) => some (bs :: bss, fifoEnd)
      | none => none
    | _ => none

/-- Environment in which the deadline never expires and no chunk arrives
during a wait (the clock reads 0 at every iteration). -/
def envLive : Env := ⟨fun _ => 0, fun _ => []⟩

/-- Environment in which the deadline has already expired at every
iteration (the clock reads 100 throughout) and nothing arrives. -/
def envDead : Env := ⟨fun _ => 100, fun _ => []⟩

/-- Environment whose clock reads 0 at iteration 0 and 100 afterwards:
with a timeout of 5, the first iteration proceeds and every later one sees
a negative remaining time.  Nothing arrives during waits. -/
def envStep : Env := ⟨fun i => if i = 0 then 0 else 100, fun _ => []⟩

/-- Environment whose clock reads `3 * i` at iteration `i` (with a timeout
of 5: iterations 0 and 1 proceed, iteration 2 sees negative remaining
time).  Nothing arrives during waits. -/
def envSlow : Env := ⟨fun i => 3 * i, fun _ => []⟩

/-- Simulated transport for the handshake's second wait: the remote sends
`"WebREPL connected"` while the client is blocked in the wait of loop
iteration 1 (after it has drained the pushed-back remainder of the
password-prompt chunk).  The clock never advances. -/
def envConnected : Env :=
  ⟨fun _ => 0, fun i => if i = 1 then [connectedMarker] else []⟩

/-! ## Helper lemmas: strings and encodings -/

/-- `startsWith p s` holds exactly when `s` extends `p`. -/
theorem startsWith_iff (p s : List Char) :
    startsWith p s = true ↔ ∃ u, s = p ++ u := by
  induction p generalizing s with
  | nil => simp [startsWith]
  | cons a ps ih =>
    cases s with
    | nil => simp [startsWith]
    | cons c cs =>
      simp only [startsWith, Bool.and_eq_true, beq_iff_eq, ih]
      constructor
      · rintro ⟨rfl, u, rfl⟩
        exact ⟨u, rfl⟩
      · rintro ⟨u, h⟩
        injection h with h1 h2
        exact ⟨h1.symm, u, h2⟩

/-- `containsSub p s` holds exactly when `p` occurs contiguously in `s`. -/
theorem containsSub_iff (p s : List Char) :
    containsSub p s = true ↔ ∃ u v, s = u ++ p ++ v := by
  induction s with
  | nil =>
    simp only [containsSub, startsWith_iff]
    constructor
    · rintro ⟨u, hu⟩
      exact ⟨[], u, hu⟩
    · rintro ⟨u, v, huv⟩
      rcases List.append_eq_nil.1 huv.symm with ⟨h1, h2⟩
      rcases List.append_eq_nil.1 h1 with ⟨h3, h4⟩
      exact ⟨[], by simp [h4]⟩
  | cons c cs ih =>
    simp only [containsSub, Bool.or_eq_true, startsWith_iff, ih]
    constructor
    · rintro (⟨u, hu⟩ | ⟨u, v, huv⟩)
      · exact ⟨[], u, by simpa using hu⟩
      · exact ⟨c :: u, v, by simp [huv]⟩
    · rintro ⟨u, v, huv⟩
      cases u with
      | nil => exact Or.inl ⟨v, by simpa using huv⟩
      | cons x us =>
        injection huv with h1 h2
        exact Or.inr ⟨us, v, h2⟩

/-- A substring of `u` is a substring of `u ++ v`. -/
theorem containsSub_mono (p u v : List Char) (h : containsSub p u = true) :
    containsSub p (u ++ v) = true := by
  rcases (containsSub_iff p u).1 h with ⟨x, y, rfl⟩
  exact (containsSub_iff p _).2 ⟨x, y ++ v, by simp⟩

/-- `splitFirstBefore`/`splitFirstAfter` reassemble the split string: the
occurrence of `p` sits between them. -/
theorem splitFirst_join (p : List Char) :
    ∀ d : List Char, containsSub p d = true →
      splitFirstBefore p d ++ p ++ splitFirstAfter p d = d := by
  intro d
  induction d with
  | nil =>
    intro h
    rcases (containsSub_iff p []).1 h with ⟨u, v, huv⟩
    rcases List.append_eq_nil.1 huv.symm with ⟨h1, h2⟩
    rcases List.append_eq_nil.1 h1 with ⟨h3, h4⟩
    simp [splitFirstBefore, splitFirstAfter, h4]
  | cons c cs ih =>
    intro h
    by_cases hs : startsWith p (c :: cs) = true
    · rcases (startsWith_iff _ _).1 hs with ⟨u, hu⟩
      simp only [splitFirstBefore, splitFirstAfter, if_pos hs]
      rw [hu, List.drop_left]
      simp
    · have hcs : containsSub p cs = true := by
        have := h
        simp only [containsSub, Bool.or_eq_true] at this
        rcases this with h' | h'
        · exact absurd h' hs
        · exact h'
      simp only [splitFirstBefore, splitFirstAfter, if_neg hs,
        List.cons_append]
      rw [ih hcs]

/-- `splitFirstBefore` is the shortest possible left part: the split
happens at the first occurrence of `p`. -/
theorem splitFirst_least (p : List Char) :
    ∀ d b a : List Char, d = b ++ p ++ a →
      (splitFirstBefore p d).length ≤ b.length := by
  intro d
  induction d with
  | nil => intro b a h; simp [splitFirstBefore]
  | cons c cs ih =>
    intro b a h
    by_cases hs : startsWith p (c :: cs) = true
    · simp [splitFirstBefore, if_pos hs]
    · cases b with
      | nil =>
        exact absurd ((startsWith_iff _ _).2 ⟨a, by simpa using h⟩) hs
      | cons x bs =>
        injection h with h1 h2
        simp only [splitFirstBefore, if_neg hs, List.length_cons,
          Nat.succ_le_succ_iff]
        exact ih bs a h2

/-- `''.join` distributes over list concatenation. -/
theorem joinChunks_append (u v : List Chunk) :
    joinChunks (u ++ v) = joinChunks u ++ joinChunks v := by
  induction u with
  | nil => simp [joinChunks]
  | cons c cs ih => simp [joinChunks, ih]

/-- UTF-8 encoding distributes over string concatenation (it encodes code
point by code point). -/
theorem utf8Encode_append (u v : List Char) :
    utf8Encode (u ++ v) = utf8Encode u ++ utf8Encode v := by
  induction u with
  | nil => simp [utf8Encode]
  | cons c cs ih => simp [utf8Encode, ih]

/-- Every code point encodes to at least one byte. -/
theorem utf8EncodeChar_length_pos (c : Char) :
    0 < (utf8EncodeChar c).length := by
  unfold utf8EncodeChar
  dsimp only
  by_cases h1 : c.toNat < 128
  · simp [h1]
  · by_cases h2 : c.toNat < 2048
    · simp [h1, h2]
    · by_cases h3 : c.toNat < 65536
      · simp [h1, h2, h3]
      · simp [h1, h2, h3]

/-- The UTF-8 encoding of a string is at least as long as the string. -/
theorem length_le_utf8Encode (s : List Char) :
    s.length ≤ (utf8Encode s).length := by
  induction s with
  | nil => simp [utf8Encode]
  | cons c cs ih =>
    have := utf8EncodeChar_length_pos c
    simp only [utf8Encode, List.length_append, List.length_cons]
    omega

/-- Delivering messages one by one with `on_message` from the empty deque
queues exactly those messages, in arrival order. -/
theorem pushAll_eq (msgs : List Chunk) : pushAll msgs = msgs := by
  have key : ∀ (ms : List Chunk) (fifo : List Chunk),
      List.foldl onMessage fifo ms = fifo ++ ms := by
    intro ms
    induction ms with
    | nil => intro fifo; simp
    | cons m ms ih =>
      intro fifo
      simp only [List.foldl_cons, ih, onMessage]
      simp
  simpa using key msgs []

/-! ## Helper lemmas: the `wait_for_string` loop -/

/-- Shape of a successful `wait_for_string`: the Python return value is
`None`, and the resulting deque starts with the part of the accumulated
data after the first occurrence of the awaited string. -/
theorem waitLoop_ok_shape (t : Int) (env : Env) (str : List Char) :
    ∀ (fuel i : Nat) (data : List Char) (fifo : List Chunk)
      (ret : Option (List Char)) (fifo' : List Chunk),
      waitForStringLoop t env str fuel i data fifo = .ok (ret, fifo') →
      ret = none ∧ ∃ d rest, containsSub str d = true ∧
        fifo' = splitFirstAfter str d :: rest := by
  intro fuel
  induction fuel with
  | zero =>
    intro i data fifo ret fifo' h
    simp [waitForStringLoop] at h
  | succ fuel ih =>
    intro i data fifo ret fifo' h
    by_cases hexp : t - env.elapsed i < 0
    · have hexp' : t < env.elapsed i := by omega
      simp [waitForStringLoop, hexp'] at h
    · cases fifo with
      | nil =>
        simp only [waitForStringLoop, if_neg hexp] at h
        exact ih (i + 1) data (env.arrivals i) ret fifo' h
      | cons chunk rest =>
        by_cases hin : containsSub str (data ++ chunk) = true
        · simp only [waitForStringLoop, if_neg hexp, hin, if_pos,
            Outcome.ok.injEq, Prod.mk.injEq] at h
          exact ⟨h.1.symm, data ++ chunk, rest, hin, h.2.symm⟩
        · simp only [waitForStringLoop, if_neg hexp, hin, Bool.false_eq_true,
            if_neg, not_false_eq_true] at h
          exact ih (i + 1) (data ++ chunk) rest ret fifo' h

/-- A `ConError` raised by the `wait_for_string` loop always carries the
timeout message naming the awaited string. -/
theorem waitLoop_err_msg (t : Int) (env : Env) (str : List Char) :
    ∀ (fuel i : Nat) (data : List Char) (fifo : List Chunk) (msg : List Char),
      waitForStringLoop t env str fuel i data fifo = .err msg →
      msg = timeoutMsg str := by
  intro fuel
  induction fuel with
  | zero =>
    intro i data fifo msg h
    simp [waitForStringLoop] at h
  | succ fuel ih =>
    intro i data fifo msg h
    by_cases hexp : t - env.elapsed i < 0
    · simp only [waitForStringLoop, if_pos hexp, Outcome.err.injEq] at h
      exact h.symm
    · cases fifo with
      | nil =>
        simp only [waitForStringLoop, if_neg hexp] at h
        exact ih (i + 1) data (env.arrivals i) msg h
      | cons chunk rest =>
        by_cases hin : containsSub str (data ++ chunk) = true
        · have hexp' : ¬ t < env.elapsed i := by omega
          simp [waitForStringLoop, hexp', hin] at h
        · simp only [waitForStringLoop, if_neg hexp, hin, Bool.false_eq_true,
            if_neg, not_false_eq_true] at h
          exact ih (i + 1) (data ++ chunk) rest msg h

/-- The `wait_for_string` loop raises only after observing a negative
remaining time at some iteration at or after its starting iteration. -/
theorem waitLoop_err_expired (t : Int) (env : Env) (str : List Char) :
    ∀ (fuel i : Nat) (data : List Char) (fifo : List Chunk) (msg : List Char),
      waitForStringLoop t env str fuel i data fifo = .err msg →
      ∃ j, i ≤ j ∧ t - env.elapsed j < 0 := by
  intro fuel
  induction fuel with
  | zero =>
    intro i data fifo msg h
    simp [waitForStringLoop] at h
  | succ fuel ih =>
    intro i data fifo msg h
    by_cases hexp : t - env.elapsed i < 0
    · exact ⟨i, le_refl i, hexp⟩
    · cases fifo with
      | nil =>
        simp only [waitForStringLoop, if_neg hexp] at h
        rcases ih (i + 1) data (env.arrivals i) msg h with ⟨j, hj, hje⟩
        exact ⟨j, by omega, hje⟩
      | cons chunk rest =>
        by_cases hin : containsSub str (data ++ chunk) = true
        · have hexp' : ¬ t < env.elapsed i := by omega
          simp [waitForStringLoop, hexp', hin] at h
        · simp only [waitForStringLoop, if_neg hexp, hin, Bool.false_eq_true,
            if_neg, not_false_eq_true] at h
          rcases ih (i + 1) (data ++ chunk) rest msg h with ⟨j, hj, hje⟩
          exact ⟨j, by omega, hje⟩

/-- When the awaited string never occurs in the data that will ever be
available (no arrivals during waits) and the deadline expires from
iteration `N` on, the `wait_for_string` loop raises the timeout
`ConError`. -/
theorem waitLoop_timeout (t : Int) (env : Env) (str : List Char) (N : Nat)
    (harr : ∀ j, env.arrivals j = [])
    (hN : ∀ j, N ≤ j → t - env.elapsed j < 0) :
    ∀ (fuel i : Nat) (data : List Char) (fifo : List Chunk),
      containsSub str (data ++ joinChunks fifo) = false →
      N < fuel + i → 0 < fuel →
      waitForStringLoop t env str fuel i data fifo = .err (timeoutMsg str) := by
  intro fuel
  induction fuel with
  | zero => intro i data fifo _ _ hpos; omega
  | succ fuel ih =>
    intro i data fifo hno hfi _
    by_cases hexp : t - env.elapsed i < 0
    · have hexp' : t < env.elapsed i := by omega
      simp [waitForStringLoop, hexp']
    · have hiN : i < N := by
        by_contra hge
        exact hexp (hN i (by omega))
      cases fifo with
      | nil =>
        simp only [waitForStringLoop, if_neg hexp, harr i]
        exact ih (i + 1) data [] hno (by omega) (by omega)
      | cons chunk rest =>
        have hno' : containsSub str ((data ++ chunk) ++ joinChunks rest) = false := by
          have : data ++ joinChunks (chunk :: rest)
              = (data ++ chunk) ++ joinChunks rest := by
            simp [joinChunks]
          rw [this] at hno
          exact hno
        have hin : containsSub str (data ++ chunk) = false := by
          cases hmem : containsSub str (data ++ chunk) with
          | false => rfl
          | true =>
            rw [containsSub_mono str (data ++ chunk) (joinChunks rest) hmem]
              at hno'
            exact absurd hno' (by simp)
        simp only [waitForStringLoop, if_neg hexp, hin, Bool.false_eq_true,
          if_neg, not_false_eq_true]
        exact ih (i + 1) (data ++ chunk) rest hno' (by omega) (by omega)

/-- Success path of `wait_for_string` when the awaited string occurs in
the concatenation of the queued chunks and the deadline does not expire:
the loop pops exactly the minimal group of chunks whose concatenation
contains the string, then pushes the part of the accumulated data after
the string's first occurrence back onto the front of the deque. -/
theorem waitLoop_finds (t : Int) (env : Env) (str : List Char) :
    ∀ (fifo : List Chunk) (fuel i : Nat) (data : List Char),
      containsSub str (data ++ joinChunks fifo) = true →
      containsSub str data = false →
      fifo.length < fuel →
      (∀ j, i ≤ j → j ≤ i + fifo.length → 0 ≤ t - env.elapsed j) →
      ∃ consumed rest, fifo = consumed ++ rest ∧
        containsSub str (data ++ joinChunks consumed) = true ∧
        (∀ k, k < consumed.length →
          containsSub str (data ++ joinChunks (consumed.take k)) = false) ∧
        waitForStringLoop t env str fuel i data fifo =
          .ok (none, splitFirstAfter str (data ++ joinChunks consumed) :: rest) := by
  intro fifo
  induction fifo with
  | nil =>
    intro fuel i data hin hno _ _
    rw [show data ++ joinChunks [] = data by simp [joinChunks]] at hin
    rw [hin] at hno
    exact absurd hno (by simp)
  | cons c cs ih =>
    intro fuel i data hin hno hfuel hexp
    cases fuel with
    | zero => simp at hfuel
    | succ fuel =>
      have hni : ¬ t - env.elapsed i < 0 := by
        have := hexp i (le_refl i) (by omega)
        omega
      by_cases hc : containsSub str (data ++ c) = true
      · refine ⟨[c], cs, by simp, ?_, ?_, ?_⟩
        · rw [show data ++ joinChunks [c] = data ++ c by simp [joinChunks]]
          exact hc
        · intro k hk
          have : k = 0 := by simp at hk; omega
          subst this
          simpa [joinChunks] using hno
        · simp only [waitForStringLoop, if_neg hni, hc, if_pos]
          rw [show data ++ joinChunks [c] = data ++ c by simp [joinChunks]]
      · have hin' : containsSub str ((data ++ c) ++ joinChunks cs) = true := by
          rw [show (data ++ c) ++ joinChunks cs
              = data ++ joinChunks (c :: cs) by simp [joinChunks]]
          exact hin
        have hexp' : ∀ j, i + 1 ≤ j → j ≤ (i + 1) + cs.length →
            0 ≤ t - env.elapsed j := by
          intro j h1 h2
          exact hexp j (by omega) (by simp; omega)
        have hcf : containsSub str (data ++ c) = false := by
          simpa using hc
        rcases ih fuel (i + 1) (data ++ c) hin' hcf (by simpa using hfuel) hexp'
          with ⟨consumed, rest, hsplit, hcon, hmin, hrun⟩
        refine ⟨c :: consumed, rest, by simp [hsplit], ?_, ?_, ?_⟩
        · rw [show data ++ joinChunks (c :: consumed)
              = (data ++ c) ++ joinChunks consumed by simp [joinChunks]]
          exact hcon
        · intro k hk
          cases k with
          | zero => simpa [joinChunks] using hno
          | succ k =>
            rw [show data ++ joinChunks ((c :: consumed).take (k + 1))
                = (data ++ c) ++ joinChunks (consumed.take k) by
                  simp [joinChunks]]
            exact hmin k (by simpa using hk)
        · simp only [waitForStringLoop, if_neg hni, hc, Bool.false_eq_true,
            if_neg, not_false_eq_true]
          rw [hrun]
          rw [show data ++ joinChunks (c :: consumed)
              = (data ++ c) ++ joinChunks consumed by simp [joinChunks]]

/-! ## Helper lemmas: the `read` loop -/

/-- The `read` loop never raises: no branch builds an error outcome. -/
theorem readLoop_no_err (t : Int) (env : Env) (size : Nat) :
    ∀ (fuel i : Nat) (data fifo : List Chunk) (msg : List Char),
      readLoop t env size fuel i data fifo ≠ .err msg := by
  intro fuel
  induction fuel with
  | zero =>
    intro i data fifo msg h
    by_cases hl : data.length < size
    · simp [readLoop, if_pos hl] at h
    · simp [readLoop, if_neg hl] at h
  | succ fuel ih =>
    intro i data fifo msg h
    by_cases hl : data.length < size
    · by_cases hexp : t - env.elapsed i < 0
      · have hexp' : t < env.elapsed i := by omega
        simp [readLoop, hl, hexp'] at h
      · cases fifo with
        | nil =>
          simp only [readLoop, if_pos hl, if_neg hexp] at h
          exact ih (i + 1) data (env.arrivals i) msg h
        | cons chunk rest =>
          simp only [readLoop, if_pos hl, if_neg hexp] at h
          exact ih (i + 1) (data ++ [chunk]) rest msg h
    · simp [readLoop, if_neg hl] at h

/-- Shape of a completed `read` loop when no chunk arrives during waits:
it returns the initial accumulator extended by a group of chunks popped
from the front of the deque, and it pops beyond `size` chunks never
(either the final accumulator is within `size` or nothing was popped). -/
theorem readLoop_ok_shape (t : Int) (env : Env) (size : Nat)
    (harr : ∀ j, env.arrivals j = []) :
    ∀ (fuel i : Nat) (data fifo data' fifo' : List Chunk),
      readLoop t env size fuel i data fifo = .ok (data', fifo') →
      ∃ taken, data' = data ++ taken ∧ fifo = taken ++ fifo' ∧
        (data'.length ≤ size ∨ taken = []) := by
  intro fuel
  induction fuel with
  | zero =>
    intro i data fifo data' fifo' h
    by_cases hl : data.length < size
    · simp [readLoop, if_pos hl] at h
    · simp only [readLoop, if_neg hl, Outcome.ok.injEq, Prod.mk.injEq] at h
      exact ⟨[], by simp [h.1.symm], by simp [h.2.symm], Or.inr rfl⟩
  | succ fuel ih =>
    intro i data fifo data' fifo' h
    by_cases hl : data.length < size
    · by_cases hexp : t - env.elapsed i < 0
      · simp only [readLoop, if_pos hl, if_pos hexp, Outcome.ok.injEq,
          Prod.mk.injEq] at h
        exact ⟨[], by simp [h.1.symm], by simp [h.2.symm], Or.inr rfl⟩
      · cases fifo with
        | nil =>
          simp only [readLoop, if_pos hl, if_neg hexp, harr i] at h
          rcases ih (i + 1) data [] data' fifo' h with ⟨taken, h1, h2, h3⟩
          rcases List.append_eq_nil.1 h2.symm with ⟨rfl, rfl⟩
          exact ⟨[], h1, rfl, h3⟩
        | cons chunk rest =>
          simp only [readLoop, if_pos hl, if_neg hexp] at h
          rcases ih (i + 1) (data ++ [chunk]) rest data' fifo' h
            with ⟨taken, h1, h2, h3⟩
          refine ⟨chunk :: taken, by simp [h1], by simp [h2], ?_⟩
          rcases h3 with h3 | h3
          · exact Or.inl h3
          · subst h3
            simp only [h1, List.append_assoc, List.append_nil]
            exact Or.inl (by simp only [List.length_append,
              List.length_cons, List.length_nil]; omega)
    · simp only [readLoop, if_neg hl, Outcome.ok.injEq, Prod.mk.injEq] at h
      exact ⟨[], by simp [h.1.symm], by simp [h.2.symm], Or.inr rfl⟩

/-- Termination and value of the `read` loop: with no arrivals during
waits and a deadline that has expired from iteration `N` on, the loop
returns normally (no exception), having popped some front group of the
deque. -/
theorem readLoop_total (t : Int) (env : Env) (size N : Nat)
    (harr : ∀ j, env.arrivals j = [])
    (hN : ∀ j, N ≤ j → t - env.elapsed j < 0) :
    ∀ (fuel i : Nat) (data fifo : List Chunk),
      N < fuel + i → 0 < fuel →
      ∃ taken rest, fifo = taken ++ rest ∧
        readLoop t env size fuel i data fifo = .ok (data ++ taken, rest) := by
  intro fuel
  induction fuel with
  | zero => intro i data fifo _ hpos; omega
  | succ fuel ih =>
    intro i data fifo hfi _
    by_cases hl : data.length < size
    · by_cases hexp : t - env.elapsed i < 0
      · refine ⟨[], fifo, by simp, ?_⟩
        have hexp' : t < env.elapsed i := by omega
        simp [readLoop, hl, hexp']
      · have hiN : i < N := by
          by_contra hge
          exact hexp (hN i (by omega))
        cases fifo with
        | nil =>
          rcases ih (i + 1) data [] (by omega) (by omega)
            with ⟨taken, rest, h1, h2⟩
          rcases List.append_eq_nil.1 h1.symm with ⟨rfl, rfl⟩
          exact ⟨[], [], by simp,
            by simp only [readLoop, if_pos hl, if_neg hexp, harr i]
               simpa using h2⟩
        | cons chunk rest' =>
          rcases ih (i + 1) (data ++ [chunk]) rest' (by omega) (by omega)
            with ⟨taken, rest, h1, h2⟩
          refine ⟨chunk :: taken, rest, by simp [h1], ?_⟩
          simp only [readLoop, if_pos hl, if_neg hexp]
          rw [h2]
          simp
    · exact ⟨[], fifo, by simp, by simp [readLoop, if_neg hl]⟩

/-- Running a sequence of `read` calls (no arrivals during any of them)
preserves the total byte content: what the calls returned plus the
encoding of what is still queued equals the encoding of the initial
queue content. -/
theorem runReads_spec (t : Int) (envs : Nat → Env)
    (harr : ∀ k j, (envs k).arrivals j = []) :
    ∀ (calls : List (Nat × Nat)) (k : Nat) (fifo : List Chunk)
      (bss : List (List Nat)) (fifoEnd : List Chunk),
      runReads t envs k calls fifo = some (bss, fifoEnd) →
      joinBytes bss ++ utf8Encode (joinChunks fifoEnd) =
        utf8Encode (joinChunks fifo) := by
  intro calls
  induction calls with
  | nil =>
    intro k fifo bss fifoEnd h
    simp only [runReads, Option.some.injEq, Prod.mk.injEq] at h
    rw [← h.1, ← h.2]
    simp [joinBytes]
  | cons call calls ih =>
    intro k fifo bss fifoEnd h
    rcases call with ⟨fuel, size⟩
    cases hL : readLoop t (envs k) size fuel 0 [] fifo with
    | diverge => simp [runReads, read, hL] at h
    | err m => exact absurd hL (by intro hc; exact readLoop_no_err _ _ _ _ _ _ _ _ hc)
    | ok p =>
      rcases p with ⟨dataL, fifo1⟩
      rcases readLoop_ok_shape t (envs k) size (harr k) fuel 0 [] fifo dataL fifo1 hL
        with ⟨taken, htk, hsplit, _⟩
      cases hrest : runReads t envs (k + 1) calls fifo1 with
      | none => simp [runReads, read, hL, hrest] at h
      | some q =>
        rcases q with ⟨bss', fifoEnd'⟩
        have h' : bss = utf8Encode (joinChunks dataL) :: bss' ∧ fifoEnd = fifoEnd' := by
          simp only [runReads, read, hL, hrest, Option.some.injEq,
            Prod.mk.injEq] at h
          exact ⟨h.1.symm, h.2.symm⟩
        have htail := ih (k + 1) fifo1 bss' fifoEnd' hrest
        rcases h' with ⟨rfl, rfl⟩
        have hdl : dataL = taken := by simpa using htk
        subst hdl
        rw [hsplit, joinChunks_append, utf8Encode_append]
        simp only [joinBytes, List.append_assoc]
        rw [htail]

/-! ## Claims -/

/-- Claim C1: for every sequence of chunks delivered via `on_message` and
any sequence of subsequent `read` calls that together consume them (final
deque empty, no arrivals during the reads), the concatenation of the
returned byte strings equals the UTF-8 encoding of the concatenation of
the chunks in arrival order, regardless of chunk boundaries. -/
theorem C1_fifo_order (t : Int) (envs : Nat → Env) (chunks : List Chunk)
    (calls : List (Nat × Nat)) (bss : List (List Nat))
    (harr : ∀ k j, (envs k).arrivals j = [])
    (hrun : runReads t envs 0 calls (pushAll chunks) = some (bss, [])) :
    joinBytes bss = utf8Encode (joinChunks chunks) := by
  have h := runReads_spec t envs harr calls 0 (pushAll chunks) bss [] hrun
  rw [pushAll_eq] at h
  simpa [joinChunks, utf8Encode] using h

/-- Witness for C1: chunks `["ab", "c"]` consumed by one `read(2)` give
back exactly the UTF-8 bytes of `"abc"`. -/
theorem C1_fifo_order_witness :
    joinBytes [[97, 98, 99]] = utf8Encode (joinChunks ["ab".toList, "c".toList]) :=
  C1_fifo_order 5 (fun _ => envLive) ["ab".toList, "c".toList] [(2, 2)]
    [[97, 98, 99]] (fun _ _ => rfl) (by decide)

/-- Claim C2 counterexample: on the claim's own instance — queued chunks
`["ab", "c:marker:de"]` and `wait_for_string("marker")` — the split at the
first occurrence of `"marker"` pushes back `":de"` (the colon before
`"de"` is after the marker), so the subsequent `read(2)` returns
`b":de"`, not `b"de"` as the claim states. -/
theorem C2_read_after_marker_counterexample :
    waitForString 5 envSlow 3 ("marker".toList)
        ["ab".toList, "c:marker:de".toList] = .ok (none, [":de".toList]) ∧
    read 5 envSlow 3 2 [":de".toList] = .ok (utf8Encode (":de".toList), []) ∧
    utf8Encode (":de".toList) ≠ utf8Encode ("de".toList) :=
  ⟨by decide, by decide, by decide⟩

/-- Claim C2 (amended): for every queue state in which the marker occurs
in the concatenation of the queued chunks (marker nonempty, deadline not
expiring while draining), `wait_for_string` dequeues chunks just until the
marker appears in the accumulated buffer, splits the buffer at the
marker's first occurrence, pushes exactly the text after the marker back
onto the front of the queue, and returns successfully; in particular, with
queued chunks `["ab", "c:marker:de"]`, `wait_for_string("marker")`
succeeds leaving `[":de"]` queued and a subsequent `read(2)` returns
`b":de"`. -/
theorem C2_marker_split (t : Int) (env : Env) (str : List Char)
    (fifo : List Chunk) (fuel : Nat)
    (hstr : str ≠ [])
    (hin : containsSub str (joinChunks fifo) = true)
    (hfuel : fifo.length < fuel)
    (hexp : ∀ j, j ≤ fifo.length → 0 ≤ t - env.elapsed j) :
    (∃ consumed rest, fifo = consumed ++ rest ∧
      containsSub str (joinChunks consumed) = true ∧
      (∀ k, k < consumed.length →
        containsSub str (joinChunks (consumed.take k)) = false) ∧
      waitForString t env fuel str fifo =
        .ok (none, splitFirstAfter str (joinChunks consumed) :: rest) ∧
      splitFirstBefore str (joinChunks consumed) ++ str ++
          splitFirstAfter str (joinChunks consumed) = joinChunks consumed ∧
      (∀ b a, joinChunks consumed = b ++ str ++ a →
        (splitFirstBefore str (joinChunks consumed)).length ≤ b.length)) ∧
    waitForString 5 envSlow 3 ("marker".toList)
        ["ab".toList, "c:marker:de".toList] = .ok (none, [":de".toList]) ∧
    read 5 envSlow 3 2 [":de".toList] = .ok (utf8Encode (":de".toList), []) := by
  refine ⟨?_, by decide, by decide⟩
  have hno : containsSub str [] = false := by
    cases str with
    | nil => exact absurd rfl hstr
    | cons a ps => simp [containsSub, startsWith]
  rcases waitLoop_finds t env str fifo fuel 0 [] (by simpa using hin) hno hfuel
      (fun j _ hj => hexp j (by simpa using hj))
    with ⟨consumed, rest, h1, h2, h3, h4⟩
  rw [List.nil_append] at h2 h4
  have h3' : ∀ k, k < consumed.length →
      containsSub str (joinChunks (consumed.take k)) = false := by
    intro k hk
    have := h3 k hk
    rwa [List.nil_append] at this
  exact ⟨consumed, rest, h1, h2, h3', h4,
    splitFirst_join str (joinChunks consumed) h2,
    fun b a hba => splitFirst_least str (joinChunks consumed) b a hba⟩

/-- Witness for C2 (amended): the claim's instance, run concretely. -/
theorem C2_marker_split_witness :
    (∃ consumed rest,
      (["ab".toList, "c:marker:de".toList] : List Chunk) = consumed ++ rest ∧
      containsSub ("marker".toList) (joinChunks consumed) = true ∧
      (∀ k, k < consumed.length →
        containsSub ("marker".toList) (joinChunks (consumed.take k)) = false) ∧
      waitForString 5 envLive 3 ("marker".toList)
          ["ab".toList, "c:marker:de".toList] =
        .ok (none, splitFirstAfter ("marker".toList) (joinChunks consumed) :: rest) ∧
      splitFirstBefore ("marker".toList) (joinChunks consumed) ++ "marker".toList ++
          splitFirstAfter ("marker".toList) (joinChunks consumed)
        = joinChunks consumed ∧
      (∀ b a, joinChunks consumed = b ++ "marker".toList ++ a →
        (splitFirstBefore ("marker".toList) (joinChunks consumed)).length
          ≤ b.length)) ∧
    waitForString 5 envSlow 3 ("marker".toList)
        ["ab".toList, "c:marker:de".toList] = .ok (none, [":de".toList]) ∧
    read 5 envSlow 3 2 [":de".toList] = .ok (utf8Encode (":de".toList), []) :=
  C2_marker_split 5 envLive ("marker".toList)
    ["ab".toList, "c:marker:de".toList] 3 (by decide) (by decide) (by decide)
    (fun j _ => by show (0 : Int) ≤ 5 - 0; decide)

/-- Claim C3: `wait_for_string` raises exactly on deadline expiry before
the marker is found, and the error carries the marker: (i) any raised
error's message is the timeout message naming the awaited string; (ii) an
error is raised only after some iteration observed a negative remaining
time; (iii) if the string never appears in the available data (no
arrivals) and remaining time is negative from some iteration on, the
error is raised; (iv) `read` never raises. -/
theorem C3_timeout_error_iff (t : Int) (env : Env) (str : List Char) :
    (∀ fuel fifo msg, waitForString t env fuel str fifo = .err msg →
      msg = timeoutMsg str) ∧
    (∀ fuel fifo msg, waitForString t env fuel str fifo = .err msg →
      ∃ j, t - env.elapsed j < 0) ∧
    (∀ N fuel fifo, (∀ j, env.arrivals j = []) →
      (∀ j, N ≤ j → t - env.elapsed j < 0) →
      containsSub str (joinChunks fifo) = false →
      N < fuel →
      waitForString t env fuel str fifo = .err (timeoutMsg str)) ∧
    (∀ fuel size fifo msg, read t env fuel size fifo ≠ .err msg) := by
  refine ⟨?_, ?_, ?_, ?_⟩
  · intro fuel fifo msg h
    exact waitLoop_err_msg t env str fuel 0 [] fifo msg h
  · intro fuel fifo msg h
    rcases waitLoop_err_expired t env str fuel 0 [] fifo msg h with ⟨j, _, hj⟩
    exact ⟨j, hj⟩
  · intro N fuel fifo harr hN hno hfuel
    exact waitLoop_timeout t env str N harr hN fuel 0 [] fifo
      (by simpa using hno) (by omega) (by omega)
  · intro fuel size fifo msg h
    unfold read at h
    cases hL : readLoop t env size fuel 0 [] fifo with
    | ok p => rw [hL] at h; rcases p with ⟨d, f⟩; simp at h
    | err m => exact readLoop_no_err t env size fuel 0 [] fifo m hL
    | diverge => rw [hL] at h; simp at h

/-- Witness for C3: an already-expired deadline with an empty queue makes
`wait_for_string` raise the timeout error carrying the marker. -/
theorem C3_timeout_error_iff_witness :
    waitForString 5 envDead 1 ['m'] [] = .err (timeoutMsg ['m']) :=
  (C3_timeout_error_iff 5 envDead ['m']).2.2.1 0 1 [] (fun _ => rfl)
    (fun _ _ => by show (5 : Int) - 100 < 0; decide) (by decide) (by decide)

/-- Claim C4: when the deadline expires before `read(size)` has
accumulated enough chunks (no arrivals), `read` returns normally with the
UTF-8 encoding of whatever front group of chunks it accumulated so far —
possibly empty — rather than raising. -/
theorem C4_deadline_short_read (t : Int) (env : Env) (N size fuel : Nat)
    (fifo : List Chunk)
    (harr : ∀ j, env.arrivals j = [])
    (hN : ∀ j, N ≤ j → t - env.elapsed j < 0)
    (hfuel : N < fuel) :
    ∃ taken rest, fifo = taken ++ rest ∧
      read t env fuel size fifo = .ok (utf8Encode (joinChunks taken), rest) := by
  rcases readLoop_total t env size N harr hN fuel 0 [] fifo (by omega) (by omega)
    with ⟨taken, rest, h1, h2⟩
  refine ⟨taken, rest, h1, ?_⟩
  unfold read
  rw [h2]
  simp

/-- Witness for C4: with no data ever pushed and an expired deadline,
`read(10)` returns the empty byte string (no exception). -/
theorem C4_deadline_short_read_witness :
    ∃ taken rest, ([] : List Chunk) = taken ++ rest ∧
      read 5 envDead 1 10 [] = .ok (utf8Encode (joinChunks taken), rest) :=
  C4_deadline_short_read 5 envDead 0 10 1 [] (fun _ => rfl)
    (fun _ _ => by show (5 : Int) - 100 < 0; decide) (by decide)

/-- Claim C5: a successful handshake is exactly: timeout set to 5, wait
for `"Password: "`, send `credential + "\r"`, wait for
`"WebREPL connected"` (both waits under timeout 5), and finally the
active timeout equals the steady-state value 1. -/
theorem C5_handshake_sequence (password : List Char) (env1 env2 : Env)
    (fuel1 fuel2 : Nat) (s s' : ConnState)
    (h : authenticate password env1 env2 fuel1 fuel2 s = .ok s') :
    s'.timeout = 1 ∧
    s'.sent = s.sent ++ [password ++ ['\r']] ∧
    ∃ fifo1 r1 r2,
      waitForString 5 env1 fuel1 passwordMarker s.fifo = .ok (r1, fifo1) ∧
      waitForString 5 env2 fuel2 connectedMarker fifo1 = .ok (r2, s'.fifo) := by
  obtain ⟨st, sf, ss⟩ := s'
  simp only [authenticate] at h
  cases h1 : waitForString 5 env1 fuel1 passwordMarker s.fifo with
  | err m =>
    rw [h1] at h
    simp at h
  | diverge =>
    rw [h1] at h
    simp at h
  | ok p =>
    obtain ⟨r1, fifo1⟩ := p
    rw [h1] at h
    dsimp only at h
    cases h2 : waitForString 5 env2 fuel2 connectedMarker fifo1 with
    | err m =>
      rw [h2] at h
      simp at h
    | diverge =>
      rw [h2] at h
      simp at h
    | ok q =>
      obtain ⟨r2, fifo2⟩ := q
      rw [h2] at h
      simp only [Outcome.ok.injEq, ConnState.mk.injEq] at h
      obtain ⟨h3, h4, h5⟩ := h
      subst h3
      subst h4
      subst h5
      exact ⟨rfl, rfl, fifo1, r1, r2, rfl, h2⟩

/-- Witness for C5: a simulated transport that queues `"Password: "` and
sends `"WebREPL connected"` during the second wait; construction with
credential `"secret"` succeeds and leaves the timeout at 1. -/
theorem C5_handshake_sequence_witness :
    (⟨1, [[]], ["secret".toList ++ ['\r']]⟩ : ConnState).timeout = 1 ∧
    (⟨1, [[]], ["secret".toList ++ ['\r']]⟩ : ConnState).sent
      = ([] : List (List Char)) ++ ["secret".toList ++ ['\r']] ∧
    ∃ fifo1 r1 r2,
      waitForString 5 envLive 3 passwordMarker ["Password: ".toList]
        = .ok (r1, fifo1) ∧
      waitForString 5 envConnected 4 connectedMarker fifo1
        = .ok (r2, (⟨1, [[]], ["secret".toList ++ ['\r']]⟩ : ConnState).fifo) :=
  C5_handshake_sequence ("secret".toList) envLive envConnected 3 4
    ⟨0, ["Password: ".toList], []⟩ ⟨1, [[]], ["secret".toList ++ ['\r']]⟩
    (by decide)

/-- Claim C6 counterexample: with the queue `["amkb"]` and marker `"mk"`,
`wait_for_string` succeeds — but its Python return value is `None` (bare
`return`), not the remainder `"b"` after the marker; the remainder is
pushed onto the queue instead. -/
theorem C6_return_value_counterexample :
    waitForString 5 envLive 1 ['m', 'k'] [['a', 'm', 'k', 'b']]
      = .ok (none, [['b']]) ∧
    (none : Option (List Char)) ≠ some ['b'] :=
  ⟨by decide, by decide⟩

/-- Claim C6 (amended): on success the marker-wait primitive returns
`None` to its caller; the remainder of the accumulated data after the
marker is not returned but pushed onto the front of the queue. -/
theorem C6_returns_none (t : Int) (env : Env) (str : List Char) (fuel : Nat)
    (fifo fifo' : List Chunk) (ret : Option (List Char))
    (h : waitForString t env fuel str fifo = .ok (ret, fifo')) :
    ret = none ∧ ∃ d rest, containsSub str d = true ∧
      fifo' = splitFirstAfter str d :: rest :=
  waitLoop_ok_shape t env str fuel 0 [] fifo ret fifo' h

/-- Witness for C6 (amended): the concrete run of the counterexample
input, through the amended theorem. -/
theorem C6_returns_none_witness :
    (none : Option (List Char)) = none ∧ ∃ d rest,
      containsSub ['m', 'k'] d = true ∧
      ([['b']] : List Chunk) = splitFirstAfter ['m', 'k'] d :: rest :=
  C6_returns_none 5 envLive ['m', 'k'] 1 [['a', 'm', 'k', 'b']] [['b']] none
    (by decide)

/-- Claim C7: pushing K chunks via `on_message` with no intervening read
leaves `inWaiting` equal to K — the number of queued chunks (chunk count,
not byte count). -/
theorem C7_in_waiting_counts_chunks (msgs : List Chunk) :
    inWaiting (pushAll msgs) = msgs.length := by
  rw [pushAll_eq]
  rfl

/-- Claim C8: `read(n)` counts chunks, not characters or bytes: (i) the
loop exits immediately once the accumulator holds `size` chunks; (ii) a
completed read dequeued at most `size` chunks, taken from the front; (iii)
a single queued chunk longer than `n ≥ 1` characters is returned whole by
`read(n)`, so the byte length of the result exceeds `n`. -/
theorem C8_read_counts_chunks (t : Int) (env : Env) :
    (∀ size fuel i (data fifo : List Chunk), size ≤ data.length →
      readLoop t env size fuel i data fifo = .ok (data, fifo)) ∧
    (∀ size fuel i fifo data' fifo', (∀ j, env.arrivals j = []) →
      readLoop t env size fuel i [] fifo = .ok (data', fifo') →
      data'.length ≤ size ∧ fifo = data' ++ fifo') ∧
    (∀ N (c : Chunk) n fuel, (∀ j, env.arrivals j = []) →
      (∀ j, N ≤ j → t - env.elapsed j < 0) →
      0 ≤ t - env.elapsed 0 → 1 ≤ n → N < fuel + 1 → n < c.length →
      read t env (fuel + 1) n [c] = .ok (utf8Encode c, []) ∧
      n < (utf8Encode c).length) := by
  refine ⟨?_, ?_, ?_⟩
  · intro size fuel i data fifo hge
    have hl : ¬ data.length < size := by omega
    cases fuel with
    | zero => simp [readLoop, if_neg hl]
    | succ fuel => simp [readLoop, if_neg hl]
  · intro size fuel i fifo data' fifo' harr h
    rcases readLoop_ok_shape t env size harr fuel i [] fifo data' fifo' h
      with ⟨taken, h1, h2, h3⟩
    have htd : data' = taken := by simpa using h1
    subst htd
    refine ⟨?_, h2⟩
    rcases h3 with h3 | h3
    · exact h3
    · subst h3
      simp
  · intro N c n fuel harr hN h0 hn hfuel hlen
    have hN1 : 1 ≤ N := by
      by_contra hc
      have hz : N = 0 := by omega
      subst hz
      have := hN 0 (le_refl 0)
      omega
    rcases readLoop_total t env n N harr hN fuel 1 [c] [] (by omega) (by omega)
      with ⟨taken, rest, h1, h2⟩
    rcases List.append_eq_nil.1 h1.symm with ⟨rfl, rfl⟩
    have hl : ([] : List Chunk).length < n := by simpa using hn
    have hstep : readLoop t env n (fuel + 1) 0 [] [c]
        = readLoop t env n fuel 1 [c] [] := by
      simp only [readLoop, if_pos hl,
        if_neg (show ¬ t - env.elapsed 0 < 0 by omega)]
      simp
    constructor
    · unfold read
      rw [hstep, h2]
      simp [joinChunks]
    · have := length_le_utf8Encode c
      omega

/-- Witness for C8: `read(1)` on the single queued chunk `"abc"` returns
all three characters' bytes, exceeding the requested count of 1. -/
theorem C8_read_counts_chunks_witness :
    read 5 envStep 2 1 ["abc".toList] = .ok (utf8Encode ("abc".toList), []) ∧
    1 < (utf8Encode ("abc".toList)).length :=
  (C8_read_counts_chunks 5 envStep).2.2 1 ("abc".toList) 1 1 (fun _ => rfl)
    (fun j hj => by
      cases j with
      | zero => exact absurd hj (by decide)
      | succ k => show (5 : Int) - 100 < 0; decide)
    (by show (0 : Int) ≤ 5 - 0; decide) (by decide) (by decide) (by decide)

/-- Claim C9: `close` always performs the notify-all wake-up — the
finalizer runs right after the websocket-close attempt even when that
attempt raises — and a close exception then propagates to the caller. -/
theorem C9_close_always_notifies (r : Except (List Char) Unit) :
    (close r).1 = [Action.wsClose, Action.notifyAll] ∧
    Action.notifyAll ∈ (close r).1 ∧
    (close r).2 = (match r with | .ok _ => none | .error e => some e) := by
  cases r with
  | ok u => exact ⟨rfl, by simp [close, tryFinally, wsCloseAttempt], rfl⟩
  | error e => exact ⟨rfl, by simp [close, tryFinally, wsCloseAttempt], rfl⟩

/-- Claim C10: every successful `wait_for_string` pushes exactly one
chunk — the remainder after the marker, possibly empty — onto the front
of the queue, so `inWaiting` right afterwards is the number of untouched
chunks plus one, hence at least 1 even with no readable data left. -/
theorem C10_pushback_one_chunk (t : Int) (env : Env) (str : List Char)
    (fuel : Nat) (fifo fifo' : List Chunk) (ret : Option (List Char))
    (h : waitForString t env fuel str fifo = .ok (ret, fifo')) :
    ∃ d rest, containsSub str d = true ∧
      fifo' = splitFirstAfter str d :: rest ∧
      inWaiting fifo' = rest.length + 1 ∧ 1 ≤ inWaiting fifo' := by
  rcases waitLoop_ok_shape t env str fuel 0 [] fifo ret fifo' h
    with ⟨_, d, rest, hc, hf⟩
  exact ⟨d, rest, hc, hf, by simp [inWaiting, hf], by simp [inWaiting, hf]⟩

/-- Witness for C10: draining wait on `["amk"]` with marker `"mk"` leaves
exactly the empty pushed-back remainder queued: `inWaiting` returns 1. -/
theorem C10_pushback_one_chunk_witness :
    ∃ d rest, containsSub ['m', 'k'] d = true ∧
      ([[]] : List Chunk) = splitFirstAfter ['m', 'k'] d :: rest ∧
      inWaiting ([[]] : List Chunk) = rest.length + 1 ∧
      1 ≤ inWaiting ([[]] : List Chunk) :=
  C10_pushback_one_chunk 5 envLive ['m', 'k'] 1 [['a', 'm', 'k']] [[]] none
    (by decide)

end ConWebsock
